import Mathlib

/-!
# The CodeCommit credential helper: `cmd/codecommit/credentials.go`

A shallow embedding of the request parser (`parseGitInput`), the URL builder
(`GitRequest.url`), the template renderer (`emitCreds`) and the two command
entry points (`execute`, `executeCredentialHelper`), followed by the
properties of the specification that concern them.

Conventions of the embedding.

* A Go `string` is a list of characters (`GoString`); the input is taken to be
  valid UTF-8 text. Where Go works on the bytes of a string (URL escaping) the
  UTF-8 encoding of each character is spelled out (`utf8Bytes`).
* Standard input is the whole text that is read until end of stream; reads
  do not fail. It is cut into lines the way a `bufio.Scanner` with the split
  function `bufio.ScanLines` and the default buffer does: the scanner stops,
  without a token, at a line that does not fit the buffer, and the loop of
  `parseGitInput`, which never reads `scanner.Err()`, ends there.
* The environment is a lookup function (`os.LookupEnv`), the command line is
  the record of the flags that were given, and the credential service
  (`codecommit.NewCloneURL` followed by `GetCodeCommitCredentials`) is a
  function parameter. Standard output and the calls made to the credential
  service are recorded in a `World`.
-/

set_option autoImplicit false

namespace CodeCommit

/-! ## Strings -/

/-- A Go string, as the list of its characters. -/
abbrev GoString := List Char

/-- The bytes of the UTF-8 encoding of a character. -/
def utf8Bytes (c : Char) : List Nat :=
  let n := c.toNat
  if n < 0x80 then [n]
  else if n < 0x800 then [0xC0 + n / 64, 0x80 + n % 64]
  else if n < 0x10000 then [0xE0 + n / 4096, 0x80 + n / 64 % 64, 0x80 + n % 64]
  else [0xF0 + n / 262144, 0x80 + n / 4096 % 64, 0x80 + n / 64 % 64, 0x80 + n % 64]

/-- The bytes of a string. -/
def bytes (s : GoString) : List Nat :=
  s.flatMap utf8Bytes

/-! ## The request and its parser -/

/-- The struct `GitRequest`: elements of a parsed Git helper input. -/
structure GitRequest where
  protocol : GoString
  path : GoString
  host : GoString
deriving DecidableEq

/-- The zero value `GitRequest{}`. -/
def GitRequest.zero : GitRequest := ⟨[], [], []⟩

/-- The helper `dropCR` of `bufio`: drop one trailing carriage return. -/
def dropCR (data : GoString) : GoString :=
  if data.getLast? = some '\r' then data.dropLast else data

/-- The constant `bufio.MaxScanTokenSize`: the size the buffer of a scanner
grows to, when no other buffer is set. -/
def maxScanTokenSize : Nat := 64 * 1024

/-- Whether the scanner can still get a token from a pending line: the line
has to leave room in the buffer for one more byte, the line feed that ends it
or the read that finds the end of the input. With the buffer full and no
token in it `Scan` fails with `ErrTooLong`. -/
def fitsBuffer (pending : GoString) : Bool :=
  (bytes pending).length < maxScanTokenSize

/-- The tokens the scanner yields on the rest of the input, `cur` being the
part of the current line read so far. A line ends at `'\n'`; the text after
the last `'\n'` is a final line when it is not empty. At a line that does not
fit the buffer the scanner stops: that line and all that follows are lost. -/
def scanTokens (cur : GoString) : GoString → List GoString
  | [] =>
    if cur = [] then []
    else if fitsBuffer cur then [dropCR cur]
    else []
  | c :: rest =>
    if c = '\n' then
      if fitsBuffer cur then dropCR cur :: scanTokens [] rest
      else []
    else scanTokens (cur ++ [c]) rest

/-- The successive values of `scanner.Text()` while `scanner.Scan()` holds. -/
def scanLines (input : GoString) : List GoString :=
  scanTokens [] input

/-- The split of a text at its last `'='` that has at least one character
after it: the text before that `'='` and the text after it. -/
def lastSplit : GoString → Option (GoString × GoString)
  | [] => none
  | c :: rest =>
    match lastSplit rest with
    | some (k, v) => some (c :: k, v)
    | none => if c = '=' ∧ rest ≠ [] then some ([], rest) else none

/-- The value of `gitInputRe.FindStringSubmatch(text)` for the expression
`^(.+)=(.+)$`: the two groups, `none` when the text does not match. The dot
matches every character but `'\n'`, and both groups are greedy, so the first
group runs up to the last `'='` that leaves the second group non-empty. -/
def gitInputRe (text : GoString) : Option (GoString × GoString) :=
  if '\n' ∈ text then none
  else
    match lastSplit text with
    | some (k, v) => if k = [] then none else some (k, v)
    | none => none

/-- The body of the scanning loop of `parseGitInput` on one line. -/
def parseGitInputStep (r : GitRequest) (text : GoString) : GitRequest :=
  match gitInputRe text with
  | some (k, v) =>
    if k = "protocol".toList then { r with protocol := v }
    else if k = "host".toList then { r with host := v }
    else if k = "path".toList then { r with path := v }
    else r
  | none => r

/-- The method `parseGitInput`, on the text read from standard input. -/
def parseGitInput (stdin : GoString) : GitRequest :=
  (scanLines stdin).foldl parseGitInputStep GitRequest.zero

/-! ## The URL builder: `net/url` on a URL with a scheme, a host and a path -/

/-- The escaping modes of `net/url`. -/
inductive Encoding where
  | encodePath
  | encodePathSegment
  | encodeHost
  | encodeZone
  | encodeUserPassword
  | encodeQueryComponent
  | encodeFragment
deriving DecidableEq

/-- The characters a host may hold unescaped, besides letters, digits and
marks: the first `switch` of `shouldEscape`. -/
def hostAllowed : List Char :=
  ['!', '$', '&', Char.ofNat 39, '(', ')', '*', '+', ',', ';', '=', ':', '[', ']', '<', '>',
    Char.ofNat 34]

/-- The reserved characters: the second `switch` of `shouldEscape`. -/
def reserved : List Char :=
  ['$', '&', '+', ',', '/', ':', ';', '=', '?', '@']

/-- The inner `switch` of `shouldEscape` on a reserved character: the value
returned, `none` for the modes that fall out of the `switch`. -/
def reservedEscape (c : Nat) : Encoding → Option Bool
  | .encodePath => some (c = '?'.toNat)
  | .encodePathSegment =>
    some (c = '/'.toNat ∨ c = ';'.toNat ∨ c = ','.toNat ∨ c = '?'.toNat)
  | .encodeUserPassword =>
    some (c = '@'.toNat ∨ c = '/'.toNat ∨ c = '?'.toNat ∨ c = ':'.toNat)
  | .encodeQueryComponent => some true
  | .encodeFragment => some false
  | .encodeHost => none
  | .encodeZone => none

/-- The function `shouldEscape` of `net/url`: whether the byte `c` is written
as a percent escape in the given mode. -/
def shouldEscape (c : Nat) (mode : Encoding) : Bool :=
  if ('a'.toNat ≤ c ∧ c ≤ 'z'.toNat) ∨ ('A'.toNat ≤ c ∧ c ≤ 'Z'.toNat)
      ∨ ('0'.toNat ≤ c ∧ c ≤ '9'.toNat) then false
  else if (mode = .encodeHost ∨ mode = .encodeZone) ∧ c ∈ hostAllowed.map Char.toNat then false
  else if c ∈ ['-', '_', '.', '~'].map Char.toNat then false
  else
    match (if c ∈ reserved.map Char.toNat then reservedEscape c mode else none) with
    | some b => b
    | none =>
      if mode = .encodeFragment ∧ c ∈ ['!', '(', ')', '*'].map Char.toNat then false
      else true

/-- The digit `upperhex[i]`. -/
def upperhex (i : Nat) : Char :=
  "0123456789ABCDEF".toList.getD i '0'

/-- What `escape` writes for one byte: the byte itself, or its percent
escape. (The `'+'` for a space is written in `encodeQueryComponent` only.) -/
def escapeByte (mode : Encoding) (c : Nat) : GoString :=
  if c = ' '.toNat ∧ mode = .encodeQueryComponent then ['+']
  else if shouldEscape c mode then ['%', upperhex (c / 16), upperhex (c % 16)]
  else [Char.ofNat c]

/-- The function `escape` of `net/url`: the string itself when no byte needs
escaping, else the string rewritten byte by byte. -/
def escape (s : GoString) (mode : Encoding) : GoString :=
  if (bytes s).all (fun c => !shouldEscape c mode) then s
  else (bytes s).flatMap (escapeByte mode)

/-- The fields of `net/url.URL` that `GitRequest.url` sets; every other field
(`Opaque`, `User`, `RawPath`, `RawQuery`, `Fragment`, ...) has its zero
value. -/
structure URL where
  Scheme : GoString
  Host : GoString
  Path : GoString
deriving DecidableEq

/-- The method `EscapedPath`, for an empty `RawPath`. -/
def URL.EscapedPath (u : URL) : GoString :=
  if u.Path = ['*'] then ['*'] else escape u.Path .encodePath

/-- The method `String` of `net/url.URL`, for an empty `Opaque`, a nil `User`,
an empty query and an empty fragment. -/
def URL.String (u : URL) : GoString :=
  let buf : GoString := if u.Scheme ≠ [] then u.Scheme ++ [':'] else []
  let buf : GoString :=
    if u.Scheme ≠ [] ∨ u.Host ≠ [] then
      let buf : GoString := if u.Host ≠ [] ∨ u.Path ≠ [] then buf ++ ['/', '/'] else buf
      if u.Host ≠ [] then buf ++ escape u.Host .encodeHost else buf
    else buf
  let path := u.EscapedPath
  let buf : GoString :=
    if path ≠ [] ∧ path.head? ≠ some '/' ∧ u.Host ≠ [] then buf ++ ['/'] else buf
  let buf : GoString :=
    if buf = [] ∧ ':' ∈ path.takeWhile (fun c => c ≠ '/') then buf ++ ['.', '/'] else buf
  buf ++ path

/-- The method `url` of `GitRequest`. -/
def GitRequest.url (g : GitRequest) : GoString :=
  URL.String { Host := g.host, Path := g.path, Scheme := g.protocol }

/-! ## The template renderer: the fragment of `text/template` in use -/

/-- Modelled from the spec: the type `codecommit.CodeCommitCredentials` of
`pkg/codecommit`, which is not part of `cmd/codecommit/credentials.go`; the
specification gives it the two string fields a template reads. -/
structure Credentials where
  Username : GoString
  Password : GoString
deriving DecidableEq

/-- The struct `Values`: the data a template is executed on. -/
structure Values where
  Credentials : Credentials

/-- The constant `envKeyCodeCommitURL`. -/
def envKeyCodeCommitURL : GoString := "CODECOMMIT_URL".toList

/-- The constant `helperTemplate`. -/
def helperTemplate : GoString :=
  ("username=\x7b\x7b .Credentials.Username \x7d\x7d\n"
    ++ "password=\x7b\x7b .Credentials.Password \x7d\x7d\n").toList

/-- The left delimiter of an action is two of these. -/
def leftBrace : Char := Char.ofNat 123

/-- The right delimiter of an action is two of these. -/
def rightBrace : Char := Char.ofNat 125

/-- A piece of a template: literal text, or the source text of an action. -/
inductive Item where
  | text (s : GoString)
  | action (s : GoString)
deriving DecidableEq

/-- The piece that ends where a delimiter starts: the action just closed, or
the text before an action when there is some. -/
def emitItem (inAction : Bool) (acc : GoString) (items : List Item) : List Item :=
  if inAction then Item.action acc :: items
  else if acc = [] then items
  else Item.text acc :: items

/-- The pieces of a template: text runs up to the next left delimiter, an
action runs up to the next right delimiter. `acc` is the piece read so far
and `pending` tells that the character just read is a first brace of the
delimiter looked for. An action left open at the end of the template is a
parse error (`none`). -/
def lexTemplate (inAction pending : Bool) (acc : GoString) : GoString → Option (List Item)
  | [] =>
    if inAction then none
    else some (emitItem false (if pending then acc ++ [leftBrace] else acc) [])
  | c :: rest =>
    let delim := if inAction then rightBrace else leftBrace
    if c = delim then
      if pending then (lexTemplate (!inAction) false [] rest).map (emitItem inAction acc)
      else lexTemplate inAction true acc rest
    else lexTemplate inAction false (if pending then acc ++ [delim, c] else acc ++ [c]) rest

/-- A character of a field name: an ASCII letter, a digit or an underscore. -/
def isAlphaNumeric (c : Char) : Bool :=
  c = '_' ∨ ('a' ≤ c ∧ c ≤ 'z') ∨ ('A' ≤ c ∧ c ≤ 'Z') ∨ ('0' ≤ c ∧ c ≤ '9')

/-- The names of a chain of fields `.A.B...` that fills the whole text;
`name` is the name being read, `seen` the names read before it. -/
def lexFields (seen : List GoString) (name : GoString) : GoString → Option (List GoString)
  | [] => if name = [] then none else some (seen ++ [name])
  | c :: rest =>
    if c = '.' then
      if name = [] then none else lexFields (seen ++ [name]) [] rest
    else if isAlphaNumeric c then lexFields seen (name ++ [c]) rest
    else none

/-- Text without the blanks at its start. -/
def dropBlanks (s : GoString) : GoString :=
  s.dropWhile (fun c => c = ' ')

/-- The field chain of an action of the form `.A.B...` between blanks; `none`
for every other action. -/
def parseAction (s : GoString) : Option (List GoString) :=
  match dropBlanks (dropBlanks s).reverse with
  | [] => none
  | c :: rest =>
    match (c :: rest).reverse with
    | [] => none
    | d :: body => if d = '.' then lexFields [] [] body else none

/-- A node of a parsed template: text, or a chain of field names. -/
inductive Node where
  | text (s : GoString)
  | field (ident : List GoString)
deriving DecidableEq

/-- The nodes of a list of pieces. -/
def parseItems : List Item → Option (List Node)
  | [] => some []
  | Item.text s :: items => (parseItems items).map (fun ns => Node.text s :: ns)
  | Item.action s :: items =>
    match parseAction s with
    | none => none
    | some ident => (parseItems items).map (fun ns => Node.field ident :: ns)

/-- The parse of a template made of text and field actions, `none` for a
template that is malformed or uses any other construct of `text/template`. -/
def parseTemplate (format : GoString) : Option (List Node) :=
  match lexTemplate false false [] format with
  | none => none
  | some items => parseItems items

/-- The value of a field chain on `Values`: the two string fields of the
credentials, `none` for every other chain. -/
def evalField (values : Values) : List GoString → Option GoString
  | [a, b] =>
    if a = "Credentials".toList then
      if b = "Username".toList then some values.Credentials.Username
      else if b = "Password".toList then some values.Credentials.Password
      else none
    else none
  | _ => none

/-- The errors the two commands return. -/
inductive Error where
  | urlNotSpecified
  | service (msg : GoString)
deriving DecidableEq

/-- How a run of a command ends: it returns `nil`, it returns an error, or
it leaves the modelled fragment of `text/template` (a template that does not
parse, on which `template.Must` panics, included). -/
inductive Outcome where
  | ok
  | error (e : Error)
  | beyond
deriving DecidableEq

/-- The execution of the nodes of a template: the text written, node after
node, and how the execution ends. A string value is written as it is. -/
def execNodes (values : Values) : List Node → GoString × Outcome
  | [] => ([], Outcome.ok)
  | Node.text s :: ns =>
    let r := execNodes values ns
    (s ++ r.1, r.2)
  | Node.field ident :: ns =>
    match evalField values ident with
    | none => ([], Outcome.beyond)
    | some v =>
      let r := execNodes values ns
      (v ++ r.1, r.2)

/-! ## The commands -/

/-- The process environment: `os.LookupEnv`. -/
abbrev Env := GoString → Option GoString

/-- The function `os.Getenv`: the empty string for a variable that is not
set. -/
def Getenv (env : Env) (key : GoString) : GoString :=
  (env key).getD []

/-- The credential service behind `getCreds`: `codecommit.NewCloneURL` on the
role ARN and the URL, then `GetCodeCommitCredentials`; it yields credentials
or the message of an error. -/
abbrev Service := GoString → Option GoString → Except GoString Credentials

/-- What a run leaves behind: the text written to standard output and the
calls made to the credential service, each with its URL and role ARN. -/
structure World where
  stdout : GoString
  calls : List (GoString × Option GoString)
deriving DecidableEq

/-- The state before a run. -/
def World.init : World := ⟨[], []⟩

/-- The method `getCreds`. -/
def getCreds (svc : Service) (url : GoString) (roleArn : Option GoString) (w : World) :
    Except GoString Credentials × World :=
  (svc url roleArn, { w with calls := w.calls ++ [(url, roleArn)] })

/-- The method `emitCreds`. -/
def emitCreds (svc : Service) (url format : GoString) (roleArn : Option GoString) (w : World) :
    Outcome × World :=
  match getCreds svc url roleArn w with
  | (Except.error msg, w1) => (Outcome.error (Error.service msg), w1)
  | (Except.ok creds, w1) =>
    match parseTemplate format with
    | none => (Outcome.beyond, w1)
    | some nodes =>
      let r := execNodes { Credentials := creds } nodes
      (r.2, { w1 with stdout := w1.stdout ++ r.1 })

/-- The flags of the `credential` command as given on the command line:
`none` for a flag that is not given. -/
structure CommandLine where
  url : Option GoString
  template : Option GoString
  roleArn : Option GoString

/-- The values of the flags of the `credential` command. -/
structure FlagSet where
  url : GoString
  template : GoString
  roleArn : GoString

/-- The flags `newCredentialsCmd` declares, once the command line is parsed:
a flag that is not given has its default value, which for `url` is
`os.Getenv(envKeyCodeCommitURL)` and for the others the empty string. -/
def newCredentialsCmd (env : Env) (args : CommandLine) : FlagSet :=
  { url := args.url.getD (Getenv env envKeyCodeCommitURL)
    template := args.template.getD []
    roleArn := args.roleArn.getD [] }

/-- The method `execute`: the `credential` command. The name of the role ARN
variable, `envKeyCodeCommitRoleArn`, is declared outside this file and is a
parameter. -/
def execute (env : Env) (envKeyCodeCommitRoleArn : GoString) (f : FlagSet) (svc : Service)
    (w : World) : Outcome × World :=
  let url := f.url
  if url = [] then (Outcome.error Error.urlNotSpecified, w)
  else
    let format := if f.template = [] then helperTemplate else f.template
    let roleArn :=
      if f.roleArn = [] then
        match env envKeyCodeCommitRoleArn with
        | some r => r
        | none => f.roleArn
      else f.roleArn
    if roleArn = [] then emitCreds svc url format none w
    else emitCreds svc url format (some roleArn) w

/-- The method `executeCredentialHelper`: the `credential-helper` command on
the text of standard input. -/
def executeCredentialHelper (env : Env) (envKeyCodeCommitRoleArn : GoString) (stdin : GoString)
    (svc : Service) (w : World) : Outcome × World :=
  let r := parseGitInput stdin
  match env envKeyCodeCommitRoleArn with
  | some roleArn => emitCreds svc r.url helperTemplate (some roleArn) w
  | none => emitCreds svc r.url helperTemplate none w

/-- Direct mode: `execute` on the flags of a command line. -/
def credentialCmd (env : Env) (envKeyCodeCommitRoleArn : GoString) (args : CommandLine)
    (svc : Service) (w : World) : Outcome × World :=
  execute env envKeyCodeCommitRoleArn (newCredentialsCmd env args) svc w

/-! ## Vocabulary of the statements -/

/-- The three keys the parser recognises. -/
inductive Key where
  | protocol
  | host
  | path
deriving DecidableEq

/-- The text of a key. -/
def Key.name : Key → GoString
  | .protocol => "protocol".toList
  | .host => "host".toList
  | .path => "path".toList

/-- The texts of the recognised keys. -/
def recognizedKeys : List GoString :=
  ["protocol".toList, "host".toList, "path".toList]

/-- The line `key=value`. -/
def requestLine (e : Key × GoString) : GoString :=
  e.1.name ++ '=' :: e.2

/-- The carriage return of a line end, when there is one. -/
def carriage (crlf : Bool) : GoString :=
  if crlf then ['\r'] else []

/-- The end of a line: a line feed, after a carriage return or not. -/
def lineEnd (crlf : Bool) : GoString :=
  carriage crlf ++ ['\n']

/-- The input made of the lines `key=value` of the entries, in their order,
each line with its line end. -/
def requestText (crlf : Bool) (es : List (Key × GoString)) : GoString :=
  es.flatMap (fun e => requestLine e ++ lineEnd crlf)

/-- The same input with the last line left without its line end. -/
def requestTextOpen (crlf : Bool) : List (Key × GoString) → GoString
  | [] => []
  | e :: es =>
    if es = [] then requestLine e
    else requestLine e ++ lineEnd crlf ++ requestTextOpen crlf es

/-- A request whose first line, `host=` and 65531 letters, is 65536 bytes
long, followed by the line `path=p`. -/
def overlongEntries : List (Key × GoString) :=
  [(Key.host, List.replicate 65531 'x'), (Key.path, "p".toList)]

/-- The value of the last entry that carries the key, the empty string when
no entry carries it: what the specification asks of the parser. -/
def lastValue (k : Key) (es : List (Key × GoString)) : GoString :=
  (((es.filter (fun e => e.1 = k)).map Prod.snd).getLast?).getD []

/-- The text of a line before its first `'='`. -/
def textBeforeFirstEq (line : GoString) : GoString :=
  line.takeWhile (fun c => c ≠ '=')

/-- The text `username=U`, line feed, `password=P`, line feed. -/
def helperOutput (creds : Credentials) : GoString :=
  "username=".toList ++ creds.Username ++ "\npassword=".toList ++ creds.Password ++ "\n".toList

/-! ## The scanner and the line pattern -/

theorem dropCR_of_getLast_ne (l : GoString) (h : l.getLast? ≠ some '\r') : dropCR l = l := by
  simp [dropCR, h]

theorem dropCR_concat_cr (l : GoString) : dropCR (l ++ ['\r']) = l := by
  simp [dropCR]

theorem bytes_cons (c : Char) (s : GoString) : bytes (c :: s) = utf8Bytes c ++ bytes s := by
  simp [bytes]

theorem bytes_append (a b : GoString) : bytes (a ++ b) = bytes a ++ bytes b := by
  simp [bytes]

theorem fitsBuffer_of_lt (l : GoString) (h : (bytes l).length < maxScanTokenSize) :
    fitsBuffer l = true := by
  simp [fitsBuffer, h]

theorem not_fitsBuffer_of_le (l : GoString) (h : maxScanTokenSize ≤ (bytes l).length) :
    ¬ fitsBuffer l = true := by
  simp only [fitsBuffer, decide_eq_true_eq]
  omega

theorem scanTokens_cons (cur : GoString) (c : Char) (rest : GoString) :
    scanTokens cur (c :: rest) =
      if c = '\n' then
        if fitsBuffer cur then dropCR cur :: scanTokens [] rest else []
      else scanTokens (cur ++ [c]) rest :=
  rfl

/-- The scanner at a line that is ended by a line feed. -/
theorem scanTokens_line (l : GoString) (hl : '\n' ∉ l) (cur rest : GoString) :
    scanTokens cur (l ++ '\n' :: rest) =
      if fitsBuffer (cur ++ l) then dropCR (cur ++ l) :: scanTokens [] rest else [] := by
  induction l generalizing cur with
  | nil => simp [scanTokens]
  | cons c l ih =>
    have hc : c ≠ '\n' := fun h => hl (by simp [h])
    have hl2 : '\n' ∉ l := fun h => hl (by simp [h])
    rw [List.cons_append, scanTokens_cons, if_neg hc, ih hl2]
    simp

/-- The scanner at a last line that no line feed ends. -/
theorem scanTokens_last (l : GoString) (hl : '\n' ∉ l) (cur : GoString) :
    scanTokens cur l =
      if cur ++ l = [] then []
      else if fitsBuffer (cur ++ l) then [dropCR (cur ++ l)] else [] := by
  induction l generalizing cur with
  | nil => simp [scanTokens]
  | cons c l ih =>
    have hc : c ≠ '\n' := fun h => hl (by simp [h])
    have hl2 : '\n' ∉ l := fun h => hl (by simp [h])
    rw [scanTokens_cons, if_neg hc, ih hl2]
    simp

/-- After a text that ends with a line feed the scanner starts afresh, unless
it has stopped in that text. -/
theorem scanTokens_append_cases (a : GoString) (ha : a.getLast? = some '\n') (cur : GoString) :
    (∀ b, scanTokens cur (a ++ b) = scanTokens cur a ++ scanTokens [] b)
      ∨ (∀ b, scanTokens cur (a ++ b) = scanTokens cur a) := by
  induction a generalizing cur with
  | nil => simp at ha
  | cons c a ih =>
    cases a with
    | nil =>
      have hc : c = '\n' := by simpa using ha
      by_cases hf : fitsBuffer cur = true
      · left
        intro b
        simp [scanTokens, hc, hf]
      · right
        intro b
        simp [scanTokens, hc, hf]
    | cons d a =>
      have ha2 : (d :: a).getLast? = some '\n' := by simpa using ha
      by_cases hc : c = '\n'
      · by_cases hf : fitsBuffer cur = true
        · rcases ih ha2 [] with h | h
          · left
            intro b
            rw [List.cons_append, scanTokens_cons, scanTokens_cons cur c (d :: a), if_pos hc,
              if_pos hc, if_pos hf, if_pos hf, h b]
            rfl
          · right
            intro b
            rw [List.cons_append, scanTokens_cons, scanTokens_cons cur c (d :: a), if_pos hc,
              if_pos hc, if_pos hf, if_pos hf, h b]
        · right
          intro b
          rw [List.cons_append, scanTokens_cons, scanTokens_cons cur c (d :: a), if_pos hc,
            if_pos hc, if_neg hf, if_neg hf]
      · rcases ih ha2 (cur ++ [c]) with h | h
        · left
          intro b
          rw [List.cons_append, scanTokens_cons, scanTokens_cons cur c (d :: a), if_neg hc,
            if_neg hc, h b]
        · right
          intro b
          rw [List.cons_append, scanTokens_cons, scanTokens_cons cur c (d :: a), if_neg hc,
            if_neg hc, h b]

/-- At a first line of `maxScanTokenSize` bytes or more the scanner yields
nothing. -/
theorem scanLines_overlong (l rest : GoString) (hn : '\n' ∉ l)
    (hlen : maxScanTokenSize ≤ (bytes l).length) : scanLines (l ++ '\n' :: rest) = [] := by
  unfold scanLines
  rw [scanTokens_line l hn, List.nil_append, if_neg (not_fitsBuffer_of_le l hlen)]

theorem bytes_replicate_x (n : Nat) : (bytes (List.replicate n 'x')).length = n := by
  induction n with
  | zero => rfl
  | succ n ih =>
    have hx : utf8Bytes 'x' = [120] := by decide
    rw [List.replicate_succ, bytes_cons, List.length_append, ih, hx]
    simp
    omega

theorem replicate_x_clean (n : Nat) (hn : 0 < n) :
    List.replicate n 'x' ≠ [] ∧ '=' ∉ List.replicate n 'x' ∧ '\n' ∉ List.replicate n 'x'
      ∧ '\r' ∉ List.replicate n 'x' := by
  refine ⟨?_, ?_, ?_, ?_⟩
  · intro h
    have := congrArg List.length h
    rw [List.length_replicate] at this
    simp at this
    omega
  · intro h
    exact absurd (List.eq_of_mem_replicate h) (by decide)
  · intro h
    exact absurd (List.eq_of_mem_replicate h) (by decide)
  · intro h
    exact absurd (List.eq_of_mem_replicate h) (by decide)

theorem lastSplit_eq_none_of_not_mem (s : GoString) (h : '=' ∉ s) : lastSplit s = none := by
  induction s with
  | nil => rfl
  | cons c s ih =>
    have hc : c ≠ '=' := fun e => h (by simp [e])
    have hs : '=' ∉ s := fun e => h (by simp [e])
    simp [lastSplit, ih hs, hc]

theorem lastSplit_append_eq (k v : GoString) (hv : v ≠ []) (h : lastSplit v = none) :
    lastSplit (k ++ '=' :: v) = some (k, v) := by
  induction k with
  | nil => simp [lastSplit, h, hv]
  | cons c k ih => simp [lastSplit, ih]

theorem lastSplit_some (s k v : GoString) (h : lastSplit s = some (k, v)) :
    s = k ++ '=' :: v ∧ v ≠ [] ∧ lastSplit v = none := by
  induction s generalizing k with
  | nil => simp [lastSplit] at h
  | cons c s ih =>
    simp only [lastSplit] at h
    cases hs : lastSplit s with
    | some p =>
      obtain ⟨k2, v2⟩ := p
      rw [hs] at h
      simp only [Option.some.injEq, Prod.mk.injEq] at h
      obtain ⟨rfl, rfl⟩ := h
      obtain ⟨h1, h2, h3⟩ := ih k2 hs
      exact ⟨by simp [h1], h2, h3⟩
    | none =>
      rw [hs] at h
      by_cases hc : c = '=' ∧ s ≠ []
      · rw [if_pos hc] at h
        simp only [Option.some.injEq, Prod.mk.injEq] at h
        obtain ⟨rfl, rfl⟩ := h
        exact ⟨by simp [hc.1], hc.2, hs⟩
      · rw [if_neg hc] at h
        simp at h

/-- The pattern on a line `k=v` whose value holds no `'='`: the key is the
text before the `'='`. -/
theorem gitInputRe_key_value (k v : GoString) (hk : k ≠ []) (hkn : '\n' ∉ k) (hv : v ≠ [])
    (hve : '=' ∉ v) (hvn : '\n' ∉ v) : gitInputRe (k ++ '=' :: v) = some (k, v) := by
  have hn : '\n' ∉ k ++ '=' :: v := by
    simp only [List.mem_append, List.mem_cons, not_or]
    exact ⟨hkn, by decide, hvn⟩
  simp only [gitInputRe, hn, if_false,
    lastSplit_append_eq k v hv (lastSplit_eq_none_of_not_mem v hve), hk]

/-- A match of the pattern splits the line at an `'='`, with a key that is
not empty. -/
theorem gitInputRe_some (s k v : GoString) (h : gitInputRe s = some (k, v)) :
    s = k ++ '=' :: v ∧ k ≠ [] ∧ v ≠ [] := by
  unfold gitInputRe at h
  split at h
  · simp at h
  · cases hs : lastSplit s with
    | none => simp [hs] at h
    | some p =>
      obtain ⟨k2, v2⟩ := p
      simp only [hs] at h
      by_cases hk : k2 = []
      · simp [hk] at h
      · simp only [hk, if_false, Option.some.injEq, Prod.mk.injEq] at h
        obtain ⟨rfl, rfl⟩ := h
        obtain ⟨h1, h2, _⟩ := lastSplit_some s k2 v2 hs
        exact ⟨h1, hk, h2⟩

/-! ## The parser on well-formed requests -/

theorem Key.name_ne_nil (k : Key) : k.name ≠ [] := by
  cases k <;> decide

theorem Key.newline_not_mem_name (k : Key) : '\n' ∉ k.name := by
  cases k <;> decide

theorem Key.eq_not_mem_name (k : Key) : '=' ∉ k.name := by
  cases k <;> decide

theorem newline_not_mem_requestLine (e : Key × GoString) (hvn : '\n' ∉ e.2) :
    '\n' ∉ requestLine e := by
  simp only [requestLine, List.mem_append, List.mem_cons, not_or]
  exact ⟨e.1.newline_not_mem_name, by decide, hvn⟩

theorem requestLine_ne_nil (e : Key × GoString) : requestLine e ≠ [] := by
  simp [requestLine]

theorem dropCR_requestLine (e : Key × GoString) (hv : e.2 ≠ [])
    (hcr : e.2.getLast? ≠ some '\r') : dropCR (requestLine e) = requestLine e := by
  apply dropCR_of_getLast_ne
  obtain ⟨k, v⟩ := e
  cases v with
  | nil => exact absurd rfl hv
  | cons c v =>
    simp only [requestLine, List.getLast?_append, List.getLast?_cons_cons]
    simpa using hcr

/-- One line `key=value` sets the field of its key to its value. -/
theorem parseGitInputStep_requestLine (r : GitRequest) (e : Key × GoString) (hv : e.2 ≠ [])
    (hve : '=' ∉ e.2) (hvn : '\n' ∉ e.2) :
    parseGitInputStep r (requestLine e) =
      { protocol := if e.1 = Key.protocol then e.2 else r.protocol
        host := if e.1 = Key.host then e.2 else r.host
        path := if e.1 = Key.path then e.2 else r.path } := by
  obtain ⟨k, v⟩ := e
  have hm := gitInputRe_key_value k.name v k.name_ne_nil k.newline_not_mem_name hv hve hvn
  simp only [parseGitInputStep, requestLine, hm]
  cases k <;> simp [Key.name]

theorem lastValue_concat (k : Key) (es : List (Key × GoString)) (e : Key × GoString)
    (d : GoString) :
    (((List.filter (fun x => x.1 = k) (es ++ [e])).map Prod.snd).getLast?).getD d =
      if e.1 = k then e.2
      else (((List.filter (fun x => x.1 = k) es).map Prod.snd).getLast?).getD d := by
  by_cases h : e.1 = k
  · simp [List.filter_append, List.filter_cons, h, List.getLast?_append]
  · simp [List.filter_append, List.filter_cons, h]

/-- The loop of the parser over the lines `key=value` of a list of entries,
from any request: each field holds the value of the last entry with its key,
or is left as it was. -/
theorem foldl_requestLines (es : List (Key × GoString))
    (h : ∀ e ∈ es, e.2 ≠ [] ∧ '=' ∉ e.2 ∧ '\n' ∉ e.2) (r : GitRequest) :
    (es.map requestLine).foldl parseGitInputStep r =
      { protocol :=
          (((es.filter (fun x => x.1 = Key.protocol)).map Prod.snd).getLast?).getD r.protocol
        host := (((es.filter (fun x => x.1 = Key.host)).map Prod.snd).getLast?).getD r.host
        path := (((es.filter (fun x => x.1 = Key.path)).map Prod.snd).getLast?).getD r.path } := by
  induction es using List.reverseRecOn with
  | nil => simp
  | append_singleton es e ih =>
    have he := h e (by simp)
    have hes : ∀ x ∈ es, x.2 ≠ [] ∧ '=' ∉ x.2 ∧ '\n' ∉ x.2 :=
      fun x hx => h x (by simp [hx])
    rw [List.map_append, List.foldl_append, ih hes]
    simp only [List.map_cons, List.map_nil, List.foldl_cons, List.foldl_nil]
    rw [parseGitInputStep_requestLine _ e he.1 he.2.1 he.2.2]
    simp only [lastValue_concat]

theorem newline_not_mem_carriage (crlf : Bool) : '\n' ∉ carriage crlf := by
  cases crlf <;> decide

theorem requestText_cons (crlf : Bool) (e : Key × GoString) (es : List (Key × GoString)) :
    requestText crlf (e :: es) =
      (requestLine e ++ carriage crlf) ++ '\n' :: requestText crlf es := by
  simp [requestText, lineEnd]

theorem requestTextOpen_cons (crlf : Bool) (e : Key × GoString) (es : List (Key × GoString))
    (hes : es ≠ []) :
    requestTextOpen crlf (e :: es) =
      (requestLine e ++ carriage crlf) ++ '\n' :: requestTextOpen crlf es := by
  simp [requestTextOpen, hes, lineEnd]

theorem newline_not_mem_rawLine (crlf : Bool) (e : Key × GoString) (hvn : '\n' ∉ e.2) :
    '\n' ∉ requestLine e ++ carriage crlf := by
  intro h
  rcases List.mem_append.1 h with h | h
  · exact newline_not_mem_requestLine e hvn h
  · exact newline_not_mem_carriage crlf h

theorem bytes_rawLine_lt (crlf : Bool) (e : Key × GoString)
    (h : (bytes (requestLine e ++ lineEnd crlf)).length ≤ maxScanTokenSize) :
    (bytes (requestLine e ++ carriage crlf)).length < maxScanTokenSize := by
  have hb : bytes ['\n'] = [10] := by decide
  have : requestLine e ++ lineEnd crlf = (requestLine e ++ carriage crlf) ++ ['\n'] := by
    simp [lineEnd]
  rw [this, bytes_append, List.length_append, hb] at h
  simp only [List.length_singleton] at h
  omega

theorem bytes_requestLine_lt (crlf : Bool) (e : Key × GoString)
    (h : (bytes (requestLine e ++ lineEnd crlf)).length ≤ maxScanTokenSize) :
    (bytes (requestLine e)).length < maxScanTokenSize := by
  have := bytes_rawLine_lt crlf e h
  rw [bytes_append, List.length_append] at this
  omega

theorem dropCR_rawLine (crlf : Bool) (e : Key × GoString) (hv : e.2 ≠ [])
    (hcr : e.2.getLast? ≠ some '\r') :
    dropCR (requestLine e ++ carriage crlf) = requestLine e := by
  cases crlf with
  | false =>
    simp only [carriage, Bool.false_eq_true, if_false, List.append_nil]
    exact dropCR_requestLine e hv hcr
  | true =>
    simp only [carriage, if_true]
    exact dropCR_concat_cr _

/-- The scanner gives back the lines of a request text whose lines fit the
buffer. -/
theorem scanLines_requestText (crlf : Bool) (es : List (Key × GoString))
    (h : ∀ e ∈ es, e.2 ≠ [] ∧ '\n' ∉ e.2 ∧ e.2.getLast? ≠ some '\r'
      ∧ (bytes (requestLine e ++ lineEnd crlf)).length ≤ maxScanTokenSize) :
    scanLines (requestText crlf es) = es.map requestLine := by
  induction es with
  | nil => rfl
  | cons e es ih =>
    have he := h e (by simp)
    have ih2 := ih (fun x hx => h x (by simp [hx]))
    unfold scanLines at ih2 ⊢
    rw [requestText_cons, scanTokens_line _ (newline_not_mem_rawLine crlf e he.2.1),
      List.nil_append, if_pos (fitsBuffer_of_lt _ (bytes_rawLine_lt crlf e he.2.2.2)),
      dropCR_rawLine crlf e he.1 he.2.2.1, ih2, List.map_cons]

/-- The scanner gives back the same lines when the last line has no line
end. -/
theorem scanLines_requestTextOpen (crlf : Bool) (es : List (Key × GoString))
    (h : ∀ e ∈ es, e.2 ≠ [] ∧ '\n' ∉ e.2 ∧ e.2.getLast? ≠ some '\r'
      ∧ (bytes (requestLine e ++ lineEnd crlf)).length ≤ maxScanTokenSize) :
    scanLines (requestTextOpen crlf es) = es.map requestLine := by
  induction es with
  | nil => rfl
  | cons e es ih =>
    have he := h e (by simp)
    have ih2 := ih (fun x hx => h x (by simp [hx]))
    unfold scanLines at ih2 ⊢
    by_cases hes : es = []
    · subst hes
      have ho : requestTextOpen crlf [e] = requestLine e := by simp [requestTextOpen]
      rw [ho, scanTokens_last _ (newline_not_mem_requestLine e he.2.1), List.nil_append,
        if_neg (requestLine_ne_nil e),
        if_pos (fitsBuffer_of_lt _ (bytes_requestLine_lt crlf e he.2.2.2)),
        dropCR_requestLine e he.1 he.2.2.1]
      rfl
    · rw [requestTextOpen_cons crlf e es hes,
        scanTokens_line _ (newline_not_mem_rawLine crlf e he.2.1), List.nil_append,
        if_pos (fitsBuffer_of_lt _ (bytes_rawLine_lt crlf e he.2.2.2)),
        dropCR_rawLine crlf e he.1 he.2.2.1, ih2, List.map_cons]

theorem bytes_overlong_line (n : Nat) :
    (bytes (requestLine (Key.host, List.replicate n 'x') ++ carriage false)).length = 5 + n := by
  have hk : (bytes (Key.host.name ++ ['='])).length = 5 := by decide
  have : requestLine (Key.host, List.replicate n 'x') ++ carriage false
      = (Key.host.name ++ ['=']) ++ List.replicate n 'x' := by
    simp [requestLine, carriage]
  rw [this, bytes_append, List.length_append, hk, bytes_replicate_x]

theorem lastValue_path_after_host (v : GoString) :
    lastValue Key.path [(Key.host, v), (Key.path, "p".toList)] = "p".toList := by
  simp [lastValue]

/-- C1, as stated, fails: the request `overlongEntries` is made of the lines
`host=x...x`, 65536 bytes long, and `path=p`, with values that are not empty
and hold no `'='` and no line break; the scanner stops at the first line, so
`parseGitInput` returns three empty fields, where the last `path` line
carries `p`. -/
theorem overlong_line_stops_scan :
    (∀ e ∈ overlongEntries, e.2 ≠ [] ∧ '=' ∉ e.2 ∧ '\n' ∉ e.2 ∧ '\r' ∉ e.2)
      ∧ parseGitInput (requestText false overlongEntries) = GitRequest.zero
      ∧ lastValue Key.path overlongEntries = "p".toList
      ∧ GitRequest.zero.path ≠ "p".toList := by
  refine ⟨?_, ?_, ?_, by decide⟩
  · intro e he
    simp only [overlongEntries, List.mem_cons, List.mem_singleton, List.not_mem_nil,
      or_false] at he
    rcases he with rfl | rfl
    · exact replicate_x_clean 65531 (by decide)
    · decide
  · have hclean := replicate_x_clean 65531 (by decide)
    have hn := newline_not_mem_rawLine false (Key.host, List.replicate 65531 'x') hclean.2.2.1
    have hlen : maxScanTokenSize ≤
        (bytes (requestLine (Key.host, List.replicate 65531 'x') ++ carriage false)).length := by
      rw [bytes_overlong_line]
      decide
    unfold parseGitInput overlongEntries
    rw [requestText_cons, scanLines_overlong _ _ hn hlen]
    rfl
  · exact lastValue_path_after_host _

/-- C1, amended. Last occurrence wins: on an input made only of lines
`protocol=X`, `host=Y`, `path=Z`, in any order and with any repetition, whose
values are not empty and hold no `'='` and no line break, and where each line
with its line end is at most `maxScanTokenSize` (65536) bytes long, each
field of the request `parseGitInput` returns is the value of the last line
carrying its key, and the empty string when no line carries it. The lines end
with a line feed or all with a carriage return and a line feed, and the last
line may or may not have its line end; of the carriage return only one at the
end of a value has to be ruled out. -/
theorem parseGitInput_last_wins (crlf : Bool) (es : List (Key × GoString))
    (h : ∀ e ∈ es, e.2 ≠ [] ∧ '=' ∉ e.2 ∧ '\n' ∉ e.2 ∧ e.2.getLast? ≠ some '\r'
      ∧ (bytes (requestLine e ++ lineEnd crlf)).length ≤ maxScanTokenSize) :
    parseGitInput (requestText crlf es) =
        { protocol := lastValue Key.protocol es
          host := lastValue Key.host es
          path := lastValue Key.path es }
      ∧ parseGitInput (requestTextOpen crlf es) =
        { protocol := lastValue Key.protocol es
          host := lastValue Key.host es
          path := lastValue Key.path es } := by
  have h1 : ∀ e ∈ es, e.2 ≠ [] ∧ '\n' ∉ e.2 ∧ e.2.getLast? ≠ some '\r'
      ∧ (bytes (requestLine e ++ lineEnd crlf)).length ≤ maxScanTokenSize :=
    fun e he => ⟨(h e he).1, (h e he).2.2.1, (h e he).2.2.2.1, (h e he).2.2.2.2⟩
  have h2 : ∀ e ∈ es, e.2 ≠ [] ∧ '=' ∉ e.2 ∧ '\n' ∉ e.2 :=
    fun e he => ⟨(h e he).1, (h e he).2.1, (h e he).2.2.1⟩
  unfold parseGitInput
  rw [scanLines_requestText crlf es h1, scanLines_requestTextOpen crlf es h1,
    foldl_requestLines es h2]
  exact ⟨rfl, rfl⟩

/-- A request with repeated keys in mixed order, its lines ended by a
carriage return and a line feed: the last value of each key is kept. -/
theorem parseGitInput_last_wins_witness :
    parseGitInput "host=a\r\nprotocol=https\r\nhost=b\r\n".toList =
        { protocol := "https".toList, host := "b".toList, path := [] }
      ∧ parseGitInput "host=a\r\nprotocol=https\r\nhost=b".toList =
        { protocol := "https".toList, host := "b".toList, path := [] } :=
  parseGitInput_last_wins true
    [(Key.host, "a".toList), (Key.protocol, "https".toList), (Key.host, "b".toList)]
    (by decide)

/-! ## Lines the parser ignores -/

/-- A line without `'='`, or whose text before the first `'='` is not a
recognised key, has no recognised key before any of its `'='`. -/
theorem no_key_before_eq (line : GoString)
    (h : '=' ∉ line ∨ textBeforeFirstEq line ∉ recognizedKeys) (k v : GoString)
    (hl : line = k ++ '=' :: v) : k ∉ recognizedKeys := by
  intro hk
  rcases h with h | h
  · exact h (by simp [hl])
  · apply h
    have hke : ∀ a ∈ k, (fun c : Char => decide (c ≠ '=')) a = true := by
      intro a ha
      have : a ≠ '=' := by
        rintro rfl
        simp only [recognizedKeys, List.mem_cons, List.mem_singleton, List.not_mem_nil,
          or_false] at hk
        rcases hk with rfl | rfl | rfl <;> revert ha <;> decide
      simpa using this
    rw [textBeforeFirstEq, hl, List.takeWhile_append_of_pos hke]
    simpa using hk

/-- The loop body leaves the request as it is on a text with no recognised
key before any of its `'='`. -/
theorem parseGitInputStep_eq_self (r : GitRequest) (t : GoString)
    (h : ∀ k v, t = k ++ '=' :: v → k ∉ recognizedKeys) : parseGitInputStep r t = r := by
  unfold parseGitInputStep
  cases hm : gitInputRe t with
  | none => rfl
  | some p =>
    obtain ⟨k, v⟩ := p
    have hk := h k v (gitInputRe_some t k v hm).1
    simp only [recognizedKeys, List.mem_cons, List.mem_singleton, List.not_mem_nil, or_false,
      not_or] at hk
    simp only [hk.1, hk.2.1, hk.2.2, if_false]

theorem no_key_before_eq_dropCR (line : GoString)
    (h : ∀ k v, line = k ++ '=' :: v → k ∉ recognizedKeys) (k v : GoString)
    (hl : dropCR line = k ++ '=' :: v) : k ∉ recognizedKeys := by
  unfold dropCR at hl
  split at hl
  · rename_i hcr
    have := List.dropLast_append_getLast? '\r' (by simpa using hcr)
    apply h k (v ++ ['\r'])
    rw [← this, hl]
    simp
  · exact h k v hl

/-- The scanner at a first line that fits the buffer. -/
theorem scanTokens_fitting_line (line post : GoString) (hn : '\n' ∉ line)
    (hfit : (bytes line).length < maxScanTokenSize) :
    scanTokens [] (line ++ '\n' :: post) = dropCR line :: scanTokens [] post := by
  rw [scanTokens_line line hn, List.nil_append, if_pos (fitsBuffer_of_lt line hfit)]

/-- The scanner at a last line that fits the buffer. -/
theorem scanTokens_fitting_last (line : GoString) (hn : '\n' ∉ line)
    (hfit : (bytes line).length < maxScanTokenSize) :
    scanTokens [] line = if line = [] then [] else [dropCR line] := by
  rw [scanTokens_last line hn, List.nil_append, if_pos (fitsBuffer_of_lt line hfit)]

/-- C2, as stated, fails: a line of 65536 letters holds no `'='`, yet put
before the line `host=h` it makes the scanner stop, and `parseGitInput`
returns three empty fields where it returns the host `h` without that
line. -/
theorem overlong_ignored_line_stops_scan :
    '=' ∉ List.replicate 65536 'x'
      ∧ parseGitInput (List.replicate 65536 'x' ++ '\n' :: "host=h\n".toList) = GitRequest.zero
      ∧ parseGitInput "host=h\n".toList = { protocol := [], host := "h".toList, path := [] }
      ∧ GitRequest.zero ≠ { protocol := [], host := "h".toList, path := [] } := by
  have hclean := replicate_x_clean 65536 (by decide)
  refine ⟨hclean.2.1, ?_, by decide, by decide⟩
  have hlen : maxScanTokenSize ≤ (bytes (List.replicate 65536 'x')).length := by
    rw [bytes_replicate_x]
    decide
  unfold parseGitInput
  rw [scanLines_overlong _ _ hclean.2.2.1 hlen]
  rfl

/-- C2, amended. Ignored lines leave the request untouched: a line that holds
no `'='`, or whose text before its first `'='` is not exactly `protocol`,
`host` or `path`, leaves every request as it is when the loop of
`parseGitInput` processes it; hence putting such a line anywhere among the
lines the loop goes through, or, when the line is shorter than
`maxScanTokenSize` (65536) bytes, as a line of its own anywhere among the
lines of the input (between two lines, or as the last line without a line
feed), does not change the request that is returned. -/
theorem ignored_line_frame (line : GoString)
    (h : '=' ∉ line ∨ textBeforeFirstEq line ∉ recognizedKeys) :
    (∀ r : GitRequest, parseGitInputStep r line = r)
      ∧ (∀ (r : GitRequest) (before after : List GoString),
          (before ++ line :: after).foldl parseGitInputStep r =
            (before ++ after).foldl parseGitInputStep r)
      ∧ (∀ pre post : GoString, '\n' ∉ line → (bytes line).length < maxScanTokenSize →
          (pre = [] ∨ pre.getLast? = some '\n') →
          parseGitInput (pre ++ (line ++ '\n' :: post)) = parseGitInput (pre ++ post))
      ∧ (∀ pre : GoString, '\n' ∉ line → (bytes line).length < maxScanTokenSize →
          (pre = [] ∨ pre.getLast? = some '\n') →
          parseGitInput (pre ++ line) = parseGitInput pre) := by
  have hstep : ∀ r : GitRequest, parseGitInputStep r line = r :=
    fun r => parseGitInputStep_eq_self r line (no_key_before_eq line h)
  have hcr : ∀ r : GitRequest, parseGitInputStep r (dropCR line) = r :=
    fun r => parseGitInputStep_eq_self r _
      (no_key_before_eq_dropCR line (no_key_before_eq line h))
  refine ⟨hstep, ?_, ?_, ?_⟩
  · intro r before after
    simp [List.foldl_append, hstep]
  · intro pre post hn hfit hpre
    unfold parseGitInput scanLines
    rcases hpre with rfl | hpre
    · rw [List.nil_append, List.nil_append, scanTokens_fitting_line line post hn hfit,
        List.foldl_cons, hcr]
    · rcases scanTokens_append_cases pre hpre [] with hp | hp
      · rw [hp, hp, scanTokens_fitting_line line post hn hfit, List.foldl_append,
          List.foldl_append, List.foldl_cons, hcr]
      · rw [hp, hp]
  · intro pre hn hfit hpre
    have hlast : ∀ r : GitRequest, (scanTokens [] line).foldl parseGitInputStep r = r := by
      intro r
      rw [scanTokens_fitting_last line hn hfit]
      split
      · rfl
      · rw [List.foldl_cons, hcr, List.foldl_nil]
    unfold parseGitInput scanLines
    rcases hpre with rfl | hpre
    · rw [List.nil_append, hlast]
      rfl
    · rcases scanTokens_append_cases pre hpre [] with hp | hp
      · rw [hp, List.foldl_append, hlast]
      · rw [hp]

/-- A comment line and a line with an unknown key, put between two lines of
a request, change nothing. -/
theorem ignored_line_frame_witness :
    parseGitInputStep ⟨"https".toList, [], []⟩ "username=bob".toList = ⟨"https".toList, [], []⟩
      ∧ parseGitInput "host=h\nno separator here\npath=p\n".toList
        = parseGitInput "host=h\npath=p\n".toList :=
  ⟨(ignored_line_frame "username=bob".toList (Or.inr (by decide))).1 _,
    (ignored_line_frame "no separator here".toList (Or.inl (by decide))).2.2.1
      "host=h\n".toList "path=p\n".toList (by decide) (by decide) (Or.inr (by decide))⟩

/-! ## Where the line is split -/

theorem lastSplit_append_some (a b k v : GoString) (h : lastSplit b = some (k, v)) :
    lastSplit (a ++ b) = some (a ++ k, v) := by
  induction a with
  | nil => simpa using h
  | cons c a ih => simp [lastSplit, ih]

/-- A line `key=value` whose value holds an `'='` that is not its last
character sets no field: the key the pattern captures runs past the first
`'='`. -/
theorem parseGitInputStep_value_with_eq (r : GitRequest) (k : Key) (v₁ v₂ : GoString)
    (hv : v₂ ≠ []) : parseGitInputStep r (k.name ++ '=' :: (v₁ ++ '=' :: v₂)) = r := by
  have hsome : ∃ k₂ w, lastSplit (v₁ ++ '=' :: v₂) = some (k₂, w) := by
    cases h : lastSplit v₂ with
    | none => exact ⟨v₁, v₂, lastSplit_append_eq v₁ v₂ hv h⟩
    | some p =>
      refine ⟨v₁ ++ '=' :: p.1, p.2, ?_⟩
      have := lastSplit_append_some (v₁ ++ ['=']) v₂ p.1 p.2 h
      simpa using this
  obtain ⟨k₂, w, hw⟩ := hsome
  have hline : lastSplit (k.name ++ '=' :: (v₁ ++ '=' :: v₂)) = some (k.name ++ '=' :: k₂, w) := by
    have := lastSplit_append_some (k.name ++ ['=']) _ k₂ w hw
    simpa using this
  have hk : k.name ++ '=' :: k₂ ≠ [] := by simp
  have hre : gitInputRe (k.name ++ '=' :: (v₁ ++ '=' :: v₂)) = none
      ∨ gitInputRe (k.name ++ '=' :: (v₁ ++ '=' :: v₂)) = some (k.name ++ '=' :: k₂, w) := by
    unfold gitInputRe
    split
    · exact Or.inl rfl
    · rw [hline]
      exact Or.inr (by simp only [hk, if_false])
  unfold parseGitInputStep
  rcases hre with hre | hre
  · rw [hre]
  · rw [hre]
    cases k <;> simp [Key.name]

/-- C8, at the input `host=a=b`: the key the pattern captures is `host=a`, the
text up to the last `'='`, so the line sets no field and the value `a=b` is
lost. -/
theorem value_with_eq_is_dropped :
    gitInputRe "host=a=b".toList = some ("host=a".toList, "b".toList)
      ∧ parseGitInputStep GitRequest.zero "host=a=b".toList = GitRequest.zero
      ∧ parseGitInput "host=a=b\n".toList = GitRequest.zero := by
  decide

/-! ## The empty input -/

/-- C9, as stated, fails: the URL of the request parsed from the empty input
is not `://`. -/
theorem empty_input_url_ne :
    ¬ (parseGitInput [] = GitRequest.zero ∧ (parseGitInput []).url = "://".toList) := by
  decide

/-- C9, amended. On the empty input `parseGitInput` returns the request with
three empty fields, and `url()` of that request is the empty string. -/
theorem empty_input_url :
    parseGitInput [] = { protocol := [], host := [], path := [] }
      ∧ (parseGitInput []).url = [] := by
  decide

/-! ## The URL of a well-formed request -/

theorem escape_eq_self (s : GoString) (mode : Encoding)
    (h : ∀ c ∈ bytes s, shouldEscape c mode = false) : escape s mode = s := by
  unfold escape
  rw [if_pos]
  simpa using h

/-- C3. URL composition: for a protocol `X`, a host `Y` and a path `Z` that
are not empty, where no byte of the host and none of the path needs escaping
and the path does not begin with `'/'`, `url()` returns `X`, `://`, `Y`, `/`
and `Z` put together. (The scheme is written as it is, so nothing is asked of
the characters of `X`.) -/
theorem url_composition (X Y Z : GoString) (hX : X ≠ []) (hY : Y ≠ []) (hZ : Z ≠ [])
    (hYe : ∀ c ∈ bytes Y, shouldEscape c Encoding.encodeHost = false)
    (hZe : ∀ c ∈ bytes Z, shouldEscape c Encoding.encodePath = false)
    (hslash : Z.head? ≠ some '/') :
    GitRequest.url { protocol := X, host := Y, path := Z } =
      X ++ "://".toList ++ Y ++ "/".toList ++ Z := by
  have hp : URL.EscapedPath { Scheme := X, Host := Y, Path := Z } = Z := by
    unfold URL.EscapedPath
    split
    · rename_i hstar
      exact hstar.symm
    · exact escape_eq_self Z _ hZe
  simp only [GitRequest.url, URL.String, hp, escape_eq_self Y _ hYe]
  simp [hX, hY, hZ, hslash]

/-- The clone URL of the command's own help text. -/
theorem url_composition_witness :
    GitRequest.url
        { protocol := "https".toList
          host := "git-codecommit.us-east-1.amazonaws.com".toList
          path := "v1/repos/your-repo".toList } =
      "https://git-codecommit.us-east-1.amazonaws.com/v1/repos/your-repo".toList :=
  url_composition "https".toList "git-codecommit.us-east-1.amazonaws.com".toList
    "v1/repos/your-repo".toList (by decide) (by decide) (by decide) (by decide) (by decide)
    (by decide)

/-! ## Direct mode calls `emitCreds` -/

/-- With a URL, `execute` ends in a call of `emitCreds` on that URL and on the
template of the flag, or the default template when the flag is empty. -/
theorem execute_eq_emitCreds (env : Env) (key : GoString) (f : FlagSet) (svc : Service)
    (w : World) (h : f.url ≠ []) :
    ∃ roleArn, execute env key f svc w =
      emitCreds svc f.url (if f.template = [] then helperTemplate else f.template) roleArn w := by
  unfold execute
  simp only [h, if_false]
  by_cases h1 : f.roleArn = []
  · cases h2 : env key with
    | none =>
      simp only [h1, if_true]
      exact ⟨none, rfl⟩
    | some r =>
      simp only [h1, if_true]
      by_cases h3 : r = []
      · exact ⟨none, by simp [h3]⟩
      · exact ⟨some r, by simp [h3]⟩
  · simp only [h1, if_false]
    exact ⟨some f.roleArn, rfl⟩

/-! ## The default template -/

theorem parseTemplate_helperTemplate :
    parseTemplate helperTemplate =
      some [Node.text "username=".toList,
        Node.field ["Credentials".toList, "Username".toList],
        Node.text "\npassword=".toList,
        Node.field ["Credentials".toList, "Password".toList],
        Node.text "\n".toList] := by
  decide

theorem execNodes_helperTemplate (creds : Credentials) :
    (parseTemplate helperTemplate).map (execNodes { Credentials := creds }) =
      some (helperOutput creds, Outcome.ok) := by
  rw [parseTemplate_helperTemplate]
  simp [execNodes, evalField, helperOutput]

theorem emitCreds_helperTemplate (svc : Service) (url : GoString) (roleArn : Option GoString)
    (w : World) (creds : Credentials) (h : svc url roleArn = Except.ok creds) :
    emitCreds svc url helperTemplate roleArn w =
      (Outcome.ok,
        { stdout := w.stdout ++ helperOutput creds, calls := w.calls ++ [(url, roleArn)] }) := by
  have hx := execNodes_helperTemplate creds
  cases hp : parseTemplate helperTemplate with
  | none => simp [hp] at hx
  | some nodes =>
    simp only [hp, Option.map_some', Option.some.injEq] at hx
    simp only [emitCreds, getCreds, h, hp, hx]

/-- C4. Default template output: rendering `helperTemplate` on credentials
with username `U` and password `P` writes exactly `username=U`, a line feed,
`password=P` and a line feed, `U` and `P` as they are. That is what
`emitCreds` appends to the standard output when the credential service
yields these credentials, in helper mode always and in direct mode when the
`template` flag is empty. -/
theorem default_template_output (creds : Credentials) (svc : Service) (env : Env)
    (key : GoString) (w : World) :
    (parseTemplate helperTemplate).map (execNodes { Credentials := creds }) =
        some ("username=".toList ++ creds.Username ++ "\npassword=".toList ++ creds.Password
          ++ "\n".toList, Outcome.ok)
      ∧ (∀ url roleArn, svc url roleArn = Except.ok creds →
          emitCreds svc url helperTemplate roleArn w =
            (Outcome.ok,
              { stdout := w.stdout ++ helperOutput creds
                calls := w.calls ++ [(url, roleArn)] }))
      ∧ (∀ stdin, (∀ roleArn, svc (parseGitInput stdin).url roleArn = Except.ok creds) →
          (executeCredentialHelper env key stdin svc w).1 = Outcome.ok
            ∧ (executeCredentialHelper env key stdin svc w).2.stdout =
              w.stdout ++ helperOutput creds)
      ∧ (∀ f : FlagSet, f.url ≠ [] → f.template = [] →
          (∀ roleArn, svc f.url roleArn = Except.ok creds) →
          (execute env key f svc w).1 = Outcome.ok
            ∧ (execute env key f svc w).2.stdout = w.stdout ++ helperOutput creds) := by
  refine ⟨execNodes_helperTemplate creds, ?_, ?_, ?_⟩
  · intro url roleArn h
    exact emitCreds_helperTemplate svc url roleArn w creds h
  · intro stdin h
    unfold executeCredentialHelper
    cases env key with
    | none => simp [emitCreds_helperTemplate svc _ _ w creds (h none)]
    | some r => simp [emitCreds_helperTemplate svc _ _ w creds (h (some r))]
  · intro f hurl htpl h
    obtain ⟨roleArn, he⟩ := execute_eq_emitCreds env key f svc w hurl
    rw [he, if_pos htpl, emitCreds_helperTemplate svc _ _ w creds (h roleArn)]
    exact ⟨rfl, rfl⟩

/-- The example of the specification: username `abc`, password `def`. -/
theorem default_template_output_witness :
    emitCreds (fun _ _ => Except.ok ⟨"abc".toList, "def".toList⟩) "u".toList helperTemplate
        none World.init =
      (Outcome.ok,
        { stdout := "username=abc\npassword=def\n".toList, calls := [("u".toList, none)] }) :=
  (default_template_output ⟨"abc".toList, "def".toList⟩
    (fun _ _ => Except.ok ⟨"abc".toList, "def".toList⟩) (fun _ => none) [] World.init).2.1
    "u".toList none rfl

/-! ## The URL of direct mode -/

theorem emitCreds_calls (svc : Service) (url format : GoString) (roleArn : Option GoString)
    (w : World) :
    (emitCreds svc url format roleArn w).2.calls = w.calls ++ [(url, roleArn)]
      ∧ (emitCreds svc url format roleArn w).1 ≠ Outcome.error Error.urlNotSpecified := by
  unfold emitCreds getCreds
  cases svc url roleArn with
  | error msg => simp
  | ok creds =>
    cases parseTemplate format with
    | none => simp
    | some nodes =>
      simp only [ne_eq, true_and]
      induction nodes with
      | nil => simp [execNodes]
      | cons n ns ih =>
        cases n with
        | text t => simpa [execNodes] using ih
        | field ident =>
          cases hf : evalField { Credentials := creds } ident with
          | none => simp [execNodes, hf]
          | some v => simpa [execNodes, hf] using ih

theorem execute_calls (env : Env) (key : GoString) (f : FlagSet) (svc : Service) (w : World)
    (h : f.url ≠ []) :
    ∃ roleArn, (execute env key f svc w).2.calls = w.calls ++ [(f.url, roleArn)]
      ∧ (execute env key f svc w).1 ≠ Outcome.error Error.urlNotSpecified := by
  obtain ⟨roleArn, he⟩ := execute_eq_emitCreds env key f svc w h
  rw [he]
  exact ⟨roleArn, emitCreds_calls svc _ _ _ w⟩

/-- C5. Missing URL is an error: with no `url` flag given and the variable
`CODECOMMIT_URL` unset, direct mode returns the error `URL not specified`,
whatever the `template` and `role-arn` flags are, and leaves the record of
the calls to the credential service and the standard output as they were. -/
theorem missing_url_error (env : Env) (key : GoString) (args : CommandLine) (svc : Service)
    (w : World) (hflag : args.url = none) (henv : env envKeyCodeCommitURL = none) :
    credentialCmd env key args svc w = (Outcome.error Error.urlNotSpecified, w) := by
  simp [credentialCmd, execute, newCredentialsCmd, Getenv, hflag, henv]

/-- A run with a template and a role ARN but no URL from either source. -/
theorem missing_url_error_witness :
    credentialCmd (fun _ => none) "CODECOMMIT_ROLE_ARN".toList
        { url := none, template := some "x".toList, roleArn := some "arn:aws:iam::1:role/r".toList }
        (fun _ _ => Except.ok ⟨"abc".toList, "def".toList⟩) World.init =
      (Outcome.error Error.urlNotSpecified, World.init) :=
  missing_url_error _ _ _ _ _ rfl rfl

/-- C7, as stated, fails: with the `url` flag given as the empty string and
`CODECOMMIT_URL` set to `u`, direct mode returns `URL not specified` and the
credential service is not called. -/
theorem empty_url_flag_no_fallback :
    credentialCmd (fun k => if k = envKeyCodeCommitURL then some "u".toList else none)
        "CODECOMMIT_ROLE_ARN".toList { url := some [], template := none, roleArn := none }
        (fun _ _ => Except.ok ⟨"abc".toList, "def".toList⟩) World.init =
      (Outcome.error Error.urlNotSpecified, World.init) := by
  decide

/-- C7, amended. With the `url` flag not given and `CODECOMMIT_URL` holding a
non-empty `U`, the URL handed to the credential service is `U` and the error
`URL not specified` is not returned; with the flag given a non-empty `F` the
URL is `F` whatever the variable holds; with the flag given as the empty
string the run ends with `URL not specified` whatever the variable holds. -/
theorem url_resolution (env : Env) (key : GoString) (args : CommandLine) (svc : Service)
    (w : World) :
    (∀ U, args.url = none → env envKeyCodeCommitURL = some U → U ≠ [] →
        ∃ roleArn, (credentialCmd env key args svc w).2.calls = w.calls ++ [(U, roleArn)]
          ∧ (credentialCmd env key args svc w).1 ≠ Outcome.error Error.urlNotSpecified)
      ∧ (∀ F, args.url = some F → F ≠ [] →
        ∃ roleArn, (credentialCmd env key args svc w).2.calls = w.calls ++ [(F, roleArn)]
          ∧ (credentialCmd env key args svc w).1 ≠ Outcome.error Error.urlNotSpecified)
      ∧ (args.url = some [] →
        credentialCmd env key args svc w = (Outcome.error Error.urlNotSpecified, w)) := by
  refine ⟨?_, ?_, ?_⟩
  · intro U hflag henv hU
    have hurl : (newCredentialsCmd env args).url = U := by
      simp [newCredentialsCmd, Getenv, hflag, henv]
    have := execute_calls env key (newCredentialsCmd env args) svc w (by rw [hurl]; exact hU)
    rw [hurl] at this
    exact this
  · intro F hflag hF
    have hurl : (newCredentialsCmd env args).url = F := by
      simp [newCredentialsCmd, hflag]
    have := execute_calls env key (newCredentialsCmd env args) svc w (by rw [hurl]; exact hF)
    rw [hurl] at this
    exact this
  · intro hflag
    simp [credentialCmd, execute, newCredentialsCmd, hflag]

/-- The URL of the variable is used when the flag is not given. -/
theorem url_resolution_witness :
    ∃ roleArn,
      (credentialCmd (fun k => if k = envKeyCodeCommitURL then some "u".toList else none)
          "CODECOMMIT_ROLE_ARN".toList { url := none, template := none, roleArn := none }
          (fun _ _ => Except.ok ⟨"abc".toList, "def".toList⟩) World.init).2.calls =
        World.init.calls ++ [("u".toList, roleArn)]
      ∧ (credentialCmd (fun k => if k = envKeyCodeCommitURL then some "u".toList else none)
          "CODECOMMIT_ROLE_ARN".toList { url := none, template := none, roleArn := none }
          (fun _ _ => Except.ok ⟨"abc".toList, "def".toList⟩) World.init).1 ≠
        Outcome.error Error.urlNotSpecified :=
  (url_resolution (fun k => if k = envKeyCodeCommitURL then some "u".toList else none)
    "CODECOMMIT_ROLE_ARN".toList { url := none, template := none, roleArn := none }
    (fun _ _ => Except.ok ⟨"abc".toList, "def".toList⟩) World.init).1 "u".toList rfl
    (by decide) (by decide)

/-! ## The role ARN -/

/-- C6, at the failing input: with the role ARN variable set to the empty
string, helper mode calls the credential service with the empty string as
role ARN, not without a role ARN; direct mode, run with a URL in the same
environment, calls it without a role ARN. -/
theorem helper_passes_empty_role_arn (key stdin url : GoString) (svc : Service) (w : World)
    (args : CommandLine) :
    (executeCredentialHelper (fun _ => some []) key stdin svc w).2.calls =
        w.calls ++ [((parseGitInput stdin).url, some [])]
      ∧ (credentialCmd (fun _ => some []) key
          { url := some ('u' :: url), template := args.template, roleArn := none } svc w).2.calls =
        w.calls ++ [('u' :: url, none)] := by
  constructor
  · simp only [executeCredentialHelper]
    exact (emitCreds_calls svc _ _ _ w).1
  · simp only [credentialCmd, execute, newCredentialsCmd, Option.getD_some, Option.getD_none]
    simp only [reduceCtorEq, if_false, if_true]
    exact (emitCreds_calls svc _ _ _ w).1

/-! ## Escaping can be undone -/

theorem char_toNat_lt (c : Char) : c.toNat < 0x110000 := by
  have h := c.valid
  simp only [UInt32.isValidChar, Nat.isValidChar] at h
  show c.val.toNat < 0x110000
  omega

theorem char_eq_of_toNat_eq (c d : Char) (h : c.toNat = d.toNat) : c = d := by
  rw [← Char.ofNat_toNat c, ← Char.ofNat_toNat d, h]

set_option maxRecDepth 100000 in
theorem shouldEscape_false_lt (m : Encoding) :
    ∀ c < 256, shouldEscape c m = false → c < 128 := by
  cases m <;> decide

theorem upperhex_inj : ∀ i < 16, ∀ j < 16, upperhex i = upperhex j → i = j := by
  decide

set_option maxRecDepth 100000 in
theorem toNat_ofNat_byte : ∀ c < 256, (Char.ofNat c).toNat = c := by
  decide

theorem shouldEscape_percent (m : Encoding) : shouldEscape '%'.toNat m = true := by
  cases m <;> decide

theorem utf8Bytes_lt (c : Char) : ∀ b ∈ utf8Bytes c, b < 256 := by
  have h := char_toNat_lt c
  intro b hb
  unfold utf8Bytes at hb
  simp only at hb
  split_ifs at hb <;>
    simp only [List.mem_cons, List.mem_singleton, List.not_mem_nil, or_false] at hb <;>
    omega

theorem utf8Bytes_ne_nil (c : Char) : utf8Bytes c ≠ [] := by
  unfold utf8Bytes
  simp only
  split_ifs <;> simp

/-- The UTF-8 encoding can be read back: the bytes of a character are never
the start of the bytes of another one. -/
theorem utf8Bytes_decode (c d : Char) (r s : List Nat)
    (h : utf8Bytes c ++ r = utf8Bytes d ++ s) : c = d ∧ r = s := by
  have hc := char_toNat_lt c
  have hd := char_toNat_lt d
  unfold utf8Bytes at h
  simp only at h
  split_ifs at h <;>
    simp only [List.cons_append, List.nil_append, List.cons.injEq] at h <;>
    first
    | (exfalso; omega)
    | exact ⟨char_eq_of_toNat_eq c d (by omega), by simp [h]⟩

theorem bytes_lt (s : GoString) : ∀ b ∈ bytes s, b < 256 := by
  intro b hb
  simp only [bytes, List.mem_flatMap] at hb
  obtain ⟨c, _, hc⟩ := hb
  exact utf8Bytes_lt c b hc

theorem bytes_inj (s t : GoString) (h : bytes s = bytes t) : s = t := by
  induction s generalizing t with
  | nil =>
    cases t with
    | nil => rfl
    | cons d t =>
      rw [bytes_cons] at h
      have := utf8Bytes_ne_nil d
      cases hu : utf8Bytes d with
      | nil => exact absurd hu this
      | cons x xs => rw [hu] at h; simp [bytes] at h
  | cons c s ih =>
    cases t with
    | nil =>
      rw [bytes_cons] at h
      have := utf8Bytes_ne_nil c
      cases hu : utf8Bytes c with
      | nil => exact absurd hu this
      | cons x xs => rw [hu] at h; simp [bytes] at h
    | cons d t =>
      rw [bytes_cons, bytes_cons] at h
      obtain ⟨rfl, h2⟩ := utf8Bytes_decode c d _ _ h
      rw [ih t h2]

/-- What `escape` writes for a byte can be read back, in every mode but
`encodeQueryComponent`. -/
theorem escapeByte_decode (m : Encoding) (hm : m ≠ Encoding.encodeQueryComponent)
    (b c : Nat) (hb : b < 256) (hc : c < 256) (r s : GoString)
    (h : escapeByte m b ++ r = escapeByte m c ++ s) : b = c ∧ r = s := by
  unfold escapeByte at h
  simp only [hm, and_false, if_false] at h
  cases eb : shouldEscape b m <;> cases ec : shouldEscape c m <;>
    simp only [eb, ec, Bool.false_eq_true, if_true, if_false, List.cons_append,
      List.nil_append, List.cons.injEq, true_and] at h
  · have h1 := congrArg Char.toNat h.1
    rw [toNat_ofNat_byte b hb, toNat_ofNat_byte c hc] at h1
    exact ⟨h1, h.2⟩
  · exfalso
    have h1 := congrArg Char.toNat h.1
    rw [toNat_ofNat_byte b hb] at h1
    rw [h1, shouldEscape_percent] at eb
    exact Bool.noConfusion eb
  · exfalso
    have h1 := congrArg Char.toNat h.1
    rw [toNat_ofNat_byte c hc] at h1
    rw [← h1, shouldEscape_percent] at ec
    exact Bool.noConfusion ec
  · have h1 := upperhex_inj (b / 16) (by omega) (c / 16) (by omega) h.1
    have h2 := upperhex_inj (b % 16) (by omega) (c % 16) (by omega) h.2.1
    exact ⟨by omega, h.2.2⟩

theorem escapeByte_ne_nil (m : Encoding) (b : Nat) : escapeByte m b ≠ [] := by
  unfold escapeByte
  split_ifs <;> simp

theorem flatMap_escapeByte_inj (m : Encoding) (hm : m ≠ Encoding.encodeQueryComponent)
    (bs cs : List Nat) (hb : ∀ b ∈ bs, b < 256) (hc : ∀ c ∈ cs, c < 256)
    (h : bs.flatMap (escapeByte m) = cs.flatMap (escapeByte m)) : bs = cs := by
  induction bs generalizing cs with
  | nil =>
    cases cs with
    | nil => rfl
    | cons c cs =>
      exfalso
      simp only [List.flatMap_nil, List.flatMap_cons] at h
      have := escapeByte_ne_nil m c
      cases hu : escapeByte m c with
      | nil => exact this hu
      | cons x xs => rw [hu] at h; simp at h
  | cons b bs ih =>
    cases cs with
    | nil =>
      exfalso
      simp only [List.flatMap_nil, List.flatMap_cons] at h
      have := escapeByte_ne_nil m b
      cases hu : escapeByte m b with
      | nil => exact this hu
      | cons x xs => rw [hu] at h; simp at h
    | cons c cs =>
      simp only [List.flatMap_cons] at h
      obtain ⟨rfl, h2⟩ := escapeByte_decode m hm b c (hb b (by simp)) (hc c (by simp)) _ _ h
      rw [ih cs (fun x hx => hb x (by simp [hx])) (fun x hx => hc x (by simp [hx])) h2]

/-- Bytes that need no escaping are written as they are. -/
theorem flatMap_escapeByte_eq_self (m : Encoding) (s : GoString)
    (h : ∀ c ∈ bytes s, shouldEscape c m = false) : (bytes s).flatMap (escapeByte m) = s := by
  induction s with
  | nil => rfl
  | cons c s ih =>
    rw [bytes_cons] at h ⊢
    have hs : ∀ x ∈ bytes s, shouldEscape x m = false := fun x hx => h x (by simp [hx])
    have hc : ∀ x ∈ utf8Bytes c, shouldEscape x m = false := fun x hx => h x (by simp [hx])
    rw [List.flatMap_append, ih hs]
    have hlt : c.toNat < 128 := by
      by_contra hge
      have hbig : ∀ x ∈ utf8Bytes c, 128 ≤ x := by
        have hv := char_toNat_lt c
        intro x hx
        unfold utf8Bytes at hx
        simp only at hx
        split_ifs at hx <;>
          simp only [List.mem_cons, List.mem_singleton, List.not_mem_nil, or_false] at hx <;>
          omega
      cases hu : utf8Bytes c with
      | nil => exact utf8Bytes_ne_nil c hu
      | cons x xs =>
        have hx : x ∈ utf8Bytes c := by simp [hu]
        have := shouldEscape_false_lt m x (utf8Bytes_lt c x hx) (hc x hx)
        have := hbig x hx
        omega
    have hu : utf8Bytes c = [c.toNat] := by
      unfold utf8Bytes
      simp [hlt]
    have he := hc c.toNat (by simp [hu])
    have hq : ¬ (c.toNat = ' '.toNat ∧ m = Encoding.encodeQueryComponent) := by
      rintro ⟨h1, h2⟩
      rw [h1, h2] at he
      exact absurd he (by decide)
    rw [hu]
    simp only [List.flatMap_cons, List.flatMap_nil, List.append_nil, escapeByte, if_neg hq, he,
      Bool.false_eq_true, if_false, Char.ofNat_toNat, List.singleton_append]

/-- The two branches of `escape` write the same text. -/
theorem escape_eq_flatMap (s : GoString) (m : Encoding) :
    escape s m = (bytes s).flatMap (escapeByte m) := by
  unfold escape
  split
  · rename_i h
    rw [flatMap_escapeByte_eq_self m s (by simpa using h)]
  · rfl

theorem escape_inj (m : Encoding) (hm : m ≠ Encoding.encodeQueryComponent) (s t : GoString)
    (h : escape s m = escape t m) : s = t := by
  rw [escape_eq_flatMap, escape_eq_flatMap] at h
  exact bytes_inj s t (flatMap_escapeByte_inj m hm _ _ (bytes_lt s) (bytes_lt t) h)

/-- The characters `escape` writes: a percent sign, a hexadecimal digit, or a
byte that needs no escaping. -/
theorem mem_escape (m : Encoding) (hm : m ≠ Encoding.encodeQueryComponent) (s : GoString)
    (x : Char) (hx : x ∈ escape s m) :
    x = '%' ∨ (∃ i < 16, x = upperhex i)
      ∨ (∃ b < 256, shouldEscape b m = false ∧ x = Char.ofNat b) := by
  rw [escape_eq_flatMap, List.mem_flatMap] at hx
  obtain ⟨b, hb, hxb⟩ := hx
  have hlt := bytes_lt s b hb
  unfold escapeByte at hxb
  simp only [hm, and_false, if_false] at hxb
  cases eb : shouldEscape b m <;>
    simp only [eb, Bool.false_eq_true, if_true, if_false, List.mem_cons, List.mem_singleton,
      List.not_mem_nil, or_false] at hxb
  · exact Or.inr (Or.inr ⟨b, hlt, eb, hxb⟩)
  · rcases hxb with h | h | h
    · exact Or.inl h
    · exact Or.inr (Or.inl ⟨b / 16, by omega, h⟩)
    · exact Or.inr (Or.inl ⟨b % 16, by omega, h⟩)

theorem upperhex_ne : ∀ i < 16, upperhex i ≠ '/' ∧ upperhex i ≠ '*' := by
  decide

/-- An escaped host holds no `'/'`. -/
theorem slash_not_mem_escape_host (s : GoString) : '/' ∉ escape s Encoding.encodeHost := by
  intro h
  rcases mem_escape _ (by decide) s _ h with h | ⟨i, hi, h⟩ | ⟨b, hb, he, h⟩
  · exact absurd h (by decide)
  · exact (upperhex_ne i hi).1 h.symm
  · have h1 := congrArg Char.toNat h
    rw [toNat_ofNat_byte b hb] at h1
    rw [← h1] at he
    exact absurd he (by decide)

/-- An escaped path holds no `'*'`. -/
theorem star_not_mem_escape_path (s : GoString) : '*' ∉ escape s Encoding.encodePath := by
  intro h
  rcases mem_escape _ (by decide) s _ h with h | ⟨i, hi, h⟩ | ⟨b, hb, he, h⟩
  · exact absurd h (by decide)
  · exact (upperhex_ne i hi).2 h.symm
  · have h1 := congrArg Char.toNat h
    rw [toNat_ofNat_byte b hb] at h1
    rw [← h1] at he
    exact absurd he (by decide)

theorem utf8Bytes_head (c : Char) (b : Nat) (bs : List Nat) (h : utf8Bytes c = b :: bs)
    (hb : b < 128) : c.toNat = b := by
  unfold utf8Bytes at h
  simp only at h
  split_ifs at h <;> simp only [List.cons.injEq] at h <;> omega

/-- The escaped form of a path begins with `'/'` only when the path does. -/
theorem escape_path_head (p : GoString) (hp : p.head? ≠ some '/') :
    (escape p Encoding.encodePath).head? ≠ some '/' := by
  cases p with
  | nil => decide
  | cons c s =>
    intro h
    apply hp
    rw [escape_eq_flatMap, bytes_cons] at h
    cases hu : utf8Bytes c with
    | nil => exact absurd hu (utf8Bytes_ne_nil c)
    | cons b bs =>
      have hb : b < 256 := utf8Bytes_lt c b (by simp [hu])
      rw [hu] at h
      simp only [List.cons_append, List.flatMap_cons] at h
      cases he : escapeByte Encoding.encodePath b ++
          ((bs ++ bytes s).flatMap (escapeByte Encoding.encodePath)) with
      | nil => rw [he] at h; simp at h
      | cons x xs =>
        rw [he] at h
        simp only [List.head?_cons, Option.some.injEq] at h
        subst h
        have hd : escapeByte Encoding.encodePath '/'.toNat = ['/'] := by decide
        have hd2 : escapeByte Encoding.encodePath '/'.toNat ++ xs = '/' :: xs := by
          rw [hd]; rfl
        have :=
          (escapeByte_decode _ (by decide) b '/'.toNat hb (by decide) _ _ (he.trans hd2.symm)).1
        have hc := utf8Bytes_head c b bs hu (by rw [this]; decide)
        rw [this] at hc
        simp only [List.head?_cons, Option.some.injEq]
        exact char_eq_of_toNat_eq c '/' hc

theorem escapedPath_inj (u v : URL) (h : u.EscapedPath = v.EscapedPath) : u.Path = v.Path := by
  unfold URL.EscapedPath at h
  split_ifs at h with hu hv hv
  · rw [hu, hv]
  · exfalso
    apply star_not_mem_escape_path v.Path
    rw [← h]
    simp
  · exfalso
    apply star_not_mem_escape_path u.Path
    rw [h]
    simp
  · exact escape_inj _ (by decide) _ _ h

theorem escapedPath_head (u : URL) (hp : u.Path.head? ≠ some '/') :
    u.EscapedPath.head? ≠ some '/' := by
  unfold URL.EscapedPath
  split_ifs
  · decide
  · exact escape_path_head u.Path hp

theorem escapedPath_eq_nil (u : URL) : u.EscapedPath = [] ↔ u.Path = [] := by
  constructor
  · intro h
    have : u.EscapedPath = URL.EscapedPath { Scheme := [], Host := [], Path := [] } := by
      rw [h]; rfl
    exact escapedPath_inj u _ this
  · intro h
    unfold URL.EscapedPath
    rw [h]
    rfl

/-- Two texts cut at a separator that the parts before it do not hold. -/
theorem append_sep_inj (a : Char) (s₁ s₂ t₁ t₂ : GoString) (h₁ : a ∉ s₁) (h₂ : a ∉ s₂)
    (h : s₁ ++ t₁ = s₂ ++ t₂) (ht₁ : t₁ = [] ∨ t₁.head? = some a)
    (ht₂ : t₂ = [] ∨ t₂.head? = some a) : s₁ = s₂ ∧ t₁ = t₂ := by
  induction s₁ generalizing s₂ with
  | nil =>
    cases s₂ with
    | nil => exact ⟨rfl, by simpa using h⟩
    | cons y s₂ =>
      exfalso
      simp only [List.nil_append, List.cons_append] at h
      rcases ht₁ with e | e
      · rw [e] at h; simp at h
      · rw [h] at e
        simp only [List.head?_cons, Option.some.injEq] at e
        exact h₂ (by simp [e])
  | cons x s₁ ih =>
    cases s₂ with
    | nil =>
      exfalso
      simp only [List.nil_append, List.cons_append] at h
      rcases ht₂ with e | e
      · rw [e] at h; simp at h
      · rw [← h] at e
        simp only [List.head?_cons, Option.some.injEq] at e
        exact h₁ (by simp [e])
    | cons y s₂ =>
      simp only [List.cons_append, List.cons.injEq] at h
      obtain ⟨r1, r2⟩ := ih s₂ (fun m => h₁ (by simp [m])) (fun m => h₂ (by simp [m])) h.2
      exact ⟨by rw [h.1, r1], r2⟩

/-- The URL of a request with a protocol and a host, whose path does not
begin with `'/'`. -/
theorem url_eq (g : GitRequest) (hp : g.protocol ≠ []) (hh : g.host ≠ [])
    (hs : g.path.head? ≠ some '/') :
    g.url = g.protocol ++ ':' :: '/' :: '/' ::
      (escape g.host Encoding.encodeHost ++
        (if g.path = [] then []
          else '/' :: URL.EscapedPath { Scheme := g.protocol, Host := g.host, Path := g.path })) := by
  have h1 := escapedPath_head { Scheme := g.protocol, Host := g.host, Path := g.path } hs
  have h2 : URL.EscapedPath { Scheme := g.protocol, Host := g.host, Path := g.path } = []
      ↔ g.path = [] :=
    escapedPath_eq_nil { Scheme := g.protocol, Host := g.host, Path := g.path }
  simp only [GitRequest.url, URL.String]
  generalize URL.EscapedPath { Scheme := g.protocol, Host := g.host, Path := g.path } = ep
    at h1 h2 ⊢
  by_cases hpath : g.path = []
  · have h3 : ep = [] := h2.2 hpath
    subst h3
    simp [hp, hh, hpath]
  · have h3 : ¬ ep = [] := fun e => hpath (h2.1 e)
    simp [hp, hh, hpath, h3, h1]

/-! ## The URL as a function of the request -/

/-- C10, as stated, fails: requests that differ have the same URL. The path
`repo` and the path `/repo` give one URL; so do a path without host and a
host without path, a protocol that holds a colon and a path that holds one,
and an empty protocol and a protocol that holds slashes. -/
theorem url_not_injective :
    (GitRequest.url { protocol := "https".toList, host := "h".toList, path := "repo".toList } =
        GitRequest.url { protocol := "https".toList, host := "h".toList, path := "/repo".toList }
      ∧ "repo".toList ≠ "/repo".toList)
    ∧ (GitRequest.url { protocol := "x".toList, host := [], path := "b".toList } =
        GitRequest.url { protocol := "x".toList, host := "b".toList, path := [] }
      ∧ ([] : GoString) ≠ "b".toList)
    ∧ (GitRequest.url { protocol := "a".toList, host := "h".toList, path := "x://k/p".toList } =
        GitRequest.url { protocol := "a://h/x".toList, host := "k".toList, path := "p".toList }
      ∧ "a".toList ≠ "a://h/x".toList)
    ∧ (GitRequest.url { protocol := [], host := "h".toList, path := "p://k".toList } =
        GitRequest.url { protocol := "//h/p".toList, host := "k".toList, path := [] }
      ∧ ([] : GoString) ≠ "//h/p".toList) := by
  decide

/-- C10, amended. `url()` is a function of the three fields, and it is
injective on the requests whose protocol is not empty and holds no colon,
whose host is not empty and whose path does not begin with `'/'`: two such
requests with the same URL have the same protocol, host and path. -/
theorem url_injective (a b : GitRequest)
    (ha : a.protocol ≠ [] ∧ ':' ∉ a.protocol ∧ a.host ≠ [] ∧ a.path.head? ≠ some '/')
    (hb : b.protocol ≠ [] ∧ ':' ∉ b.protocol ∧ b.host ≠ [] ∧ b.path.head? ≠ some '/')
    (h : a.url = b.url) :
    a.protocol = b.protocol ∧ a.host = b.host ∧ a.path = b.path := by
  rw [url_eq a ha.1 ha.2.2.1 ha.2.2.2, url_eq b hb.1 hb.2.2.1 hb.2.2.2] at h
  obtain ⟨hproto, hrest⟩ :=
    append_sep_inj ':' _ _ _ _ ha.2.1 hb.2.1 h (Or.inr rfl) (Or.inr rfl)
  simp only [List.cons.injEq, true_and] at hrest
  have hta : ∀ g : GitRequest,
      (if g.path = [] then ([] : GoString)
        else '/' :: URL.EscapedPath { Scheme := g.protocol, Host := g.host, Path := g.path })
          = []
      ∨ (if g.path = [] then ([] : GoString)
        else '/' :: URL.EscapedPath { Scheme := g.protocol, Host := g.host, Path := g.path }).head?
          = some '/' := by
    intro g
    by_cases hg : g.path = []
    · left; simp [hg]
    · right; simp [hg]
  obtain ⟨hhost, htail⟩ :=
    append_sep_inj '/' _ _ _ _ (slash_not_mem_escape_host a.host)
      (slash_not_mem_escape_host b.host) hrest (hta a) (hta b)
  refine ⟨hproto, escape_inj _ (by decide) _ _ hhost, ?_⟩
  by_cases hpa : a.path = [] <;> by_cases hpb : b.path = []
  · rw [hpa, hpb]
  · simp [hpa, hpb] at htail
  · simp [hpa, hpb] at htail
  · simp only [hpa, hpb, if_false, List.cons.injEq, true_and] at htail
    exact escapedPath_inj _ _ htail

/-- Two requests with the URL `https://h/a%20b`, escaping included. -/
theorem url_injective_witness :
    ({ protocol := "https".toList, host := "h".toList, path := "a b".toList } : GitRequest).protocol
        = "https".toList
      ∧ ({ protocol := "https".toList, host := "h".toList, path := "a b".toList } :
          GitRequest).host = "h".toList
      ∧ ({ protocol := "https".toList, host := "h".toList, path := "a b".toList } :
          GitRequest).path = "a b".toList :=
  url_injective { protocol := "https".toList, host := "h".toList, path := "a b".toList }
    { protocol := "https".toList, host := "h".toList, path := "a b".toList }
    (by decide) (by decide) rfl

end CodeCommit
